import Mathlib

/-!
Verification of the PageRank core (`pagerank.py`) against its design
specification.

The corpus is embedded as a count `n` of pages together with a link map
`c : Fin n → Finset (Fin n)`; pages are elements of `Fin n`, so the
closure invariant of the data model (every linked page is a key of the
corpus) is built into the types.  Exact rational arithmetic (`ℚ`)
replaces Python floats, as the specification reasons in exact
arithmetic with explicit tolerances.  Python's fallible operations
(division by zero at the sampler's final normalisation) are embedded
with `Option`.
-/

namespace PageRankSpec

/-- A corpus over `n` pages: the set of pages each page links to.
Mirrors the Python `corpus` dict whose keys are the `n` pages. -/
def Corpus (n : ℕ) := Fin n → Finset (Fin n)

/-- Embedding of `transition_model(corpus, page, damping_factor)`
(pagerank.py lines 51-76).  If `corpus[page]` is empty, the uniform
distribution `1/len(corpus)`; otherwise every page gets
`(1-damping)/len(corpus)` and every linked page additionally gets
`damping/len(corpus[page])`. -/
def transition_model (n : ℕ) (c : Corpus n) (page : Fin n) (d : ℚ) : Fin n → ℚ :=
  if c page = ∅ then
    fun _ => 1 / n
  else
    fun p => (1 - d) / n + (if p ∈ c page then d / ((c page).card : ℚ) else 0)

/-- Embedding of the nested `formula(page)` of `iterate_pagerank`
(pagerank.py lines 121-135): `(1-d)/N` plus `d` times the sum over all
pages `i` of `PageRank[i]/len(corpus[i])` when `i` links to `page`, a
dangling `i` counting as linking to every page with `len(corpus)`
links. -/
def formula (n : ℕ) (c : Corpus n) (d : ℚ) (pr : Fin n → ℚ) (page : Fin n) : ℚ :=
  (1 - d) / n +
    d * ∑ i, (if c i ≠ ∅ then (if page ∈ c i then pr i / ((c i).card : ℚ) else 0)
              else pr i / n)

/-- One simultaneous update sweep: the dict comprehension
`{p: formula(p) for p in corpus}` of pagerank.py lines 143 and 149,
which reads only the previous vector `pr`. -/
def stepPR (n : ℕ) (c : Corpus n) (d : ℚ) (pr : Fin n → ℚ) : Fin n → ℚ :=
  fun p => formula n c d pr p

/-- The `while repeat` loop of `iterate_pagerank` (pagerank.py lines
145-153) as a big-step relation.  The state is the value of
`new_PageRank` at the top of the loop body; the body sets
`PageRank = new_PageRank`, recomputes `new_PageRank` by one sweep, and
exits returning `PageRank` when no page's rank moved by `0.001` or
more (the code's `any(abs(...) >= 0.001)` test fails). -/
inductive LoopResult (n : ℕ) (c : Corpus n) (d : ℚ) :
    (Fin n → ℚ) → (Fin n → ℚ) → Prop
  | done (x : Fin n → ℚ)
      (h : ¬ ∃ p, 1/1000 ≤ |x p - stepPR n c d x p|) :
      LoopResult n c d x x
  | cont (x r : Fin n → ℚ)
      (h : ∃ p, 1/1000 ≤ |x p - stepPR n c d x p|)
      (htail : LoopResult n c d (stepPR n c d x) r) :
      LoopResult n c d x r

/-- `iterate_pagerank(corpus, damping_factor)` (pagerank.py lines
112-154) returns `r`: starting from the uniform vector `1/N`, one
sweep is taken before the loop (line 143), and the loop then runs from
that vector. -/
def iterate_rel (n : ℕ) (c : Corpus n) (d : ℚ) (r : Fin n → ℚ) : Prop :=
  LoopResult n c d (stepPR n c d (fun _ => 1 / n)) r

end PageRankSpec

namespace PageRankSpec

/-- C2: characterisation of `transition_model`'s values. -/
theorem transition_model_values (n : ℕ) (c : Corpus n) (page : Fin n) (d : ℚ)
    (hd0 : 0 ≤ d) (hd1 : d ≤ 1) :
    (c page = ∅ → ∀ p, transition_model n c page d p = 1 / n) ∧
    (c page ≠ ∅ → ∀ p,
      (p ∉ c page → transition_model n c page d p = (1 - d) / n) ∧
      (p ∈ c page →
        transition_model n c page d p = (1 - d) / n + d / ((c page).card : ℚ))) := by
  constructor
  · intro h p
    simp [transition_model, h]
  · intro h p
    constructor
    · intro hp
      simp [transition_model, h, hp]
    · intro hp
      simp [transition_model, h, hp]

/-- A concrete two-page corpus: page 0 links to page 1, page 1 dangles. -/
def cTwo : Corpus 2 := fun i => if i = 0 then {1} else ∅

/-- C2 witness: the characterisation at the concrete corpus `cTwo`,
page 0, damping 1/2. -/
theorem transition_model_values_witness :
    (cTwo 0 = ∅ → ∀ p, transition_model 2 cTwo 0 (1/2) p = 1 / 2) ∧
    (cTwo 0 ≠ ∅ → ∀ p,
      (p ∉ cTwo 0 → transition_model 2 cTwo 0 (1/2) p = (1 - 1/2) / 2) ∧
      (p ∈ cTwo 0 →
        transition_model 2 cTwo 0 (1/2) p = (1 - 1/2) / 2 + (1/2) / ((cTwo 0).card : ℚ))) := by
  have h := transition_model_values 2 cTwo 0 (1/2) (by norm_num) (by norm_num)
  simpa using h

/-- C9: the transition model is a probability distribution: values
non-negative and summing to exactly 1 (hence within `1e-9`). -/
theorem transition_model_sum_one (n : ℕ) (c : Corpus n) (page : Fin n) (d : ℚ)
    (hn : 1 ≤ n) (hd0 : 0 ≤ d) (hd1 : d ≤ 1) :
    (∀ p, 0 ≤ transition_model n c page d p) ∧
    ∑ p, transition_model n c page d p = 1 := by
  have hn0 : (n : ℚ) ≠ 0 := Nat.cast_ne_zero.mpr (by omega)
  have hnn : (0 : ℚ) ≤ n := by positivity
  by_cases h : c page = ∅
  · have key : transition_model n c page d = fun _ => 1 / (n : ℚ) := by
      simp [transition_model, h]
    rw [key]
    refine ⟨fun p => by positivity, ?_⟩
    simp only [Finset.sum_const, Finset.card_univ, Fintype.card_fin, nsmul_eq_mul]
    field_simp
  · have hcard : ((c page).card : ℚ) ≠ 0 := by
      have hne : (c page).Nonempty := Finset.nonempty_iff_ne_empty.mpr h
      exact_mod_cast (Finset.card_pos.mpr hne).ne'
    have hcardnn : (0 : ℚ) ≤ ((c page).card : ℚ) := by positivity
    have hbase : 0 ≤ (1 - d) / (n : ℚ) := by
      apply div_nonneg _ hnn
      linarith
    have key : transition_model n c page d =
        fun p => (1 - d) / (n : ℚ) + (if p ∈ c page then d / ((c page).card : ℚ) else 0) := by
      simp [transition_model, h]
    rw [key]
    refine ⟨fun p => ?_, ?_⟩
    · refine add_nonneg hbase ?_
      split
      · exact div_nonneg hd0 hcardnn
      · exact le_refl 0
    · rw [Finset.sum_add_distrib]
      have h1 : ∑ _p : Fin n, (1 - d) / (n : ℚ) = 1 - d := by
        simp only [Finset.sum_const, Finset.card_univ, Fintype.card_fin, nsmul_eq_mul]
        field_simp
      have h2 : ∑ p : Fin n, (if p ∈ c page then d / ((c page).card : ℚ) else 0) = d := by
        rw [Finset.sum_ite_mem, Finset.univ_inter, Finset.sum_const, nsmul_eq_mul]
        field_simp
      rw [h1, h2]
      ring

/-- C9 witness: the distribution property at `cTwo`, page 0, damping 17/20. -/
theorem transition_model_sum_one_witness :
    (∀ p, 0 ≤ transition_model 2 cTwo 0 (17/20) p) ∧
    ∑ p, transition_model 2 cTwo 0 (17/20) p = 1 :=
  transition_model_sum_one 2 cTwo 0 (17/20) (by norm_num) (by norm_num) (by norm_num)

/-- A sweep of the iteration evaluated sequentially, one page at a
time in the given order, each page's entry overwritten with
`formula(page)` computed from the frozen previous vector `pr` — the
sequential reading of the dict comprehension on pagerank.py line 149. -/
def sweepUpd (n : ℕ) (c : Corpus n) (d : ℚ) (pr : Fin n → ℚ) :
    List (Fin n) → (Fin n → ℚ) → (Fin n → ℚ)
  | [], acc => acc
  | page :: rest, acc =>
      sweepUpd n c d pr rest (Function.update acc page (formula n c d pr page))

theorem sweepUpd_not_mem (n : ℕ) (c : Corpus n) (d : ℚ) (pr : Fin n → ℚ)
    (order : List (Fin n)) (acc : Fin n → ℚ) (p : Fin n) (hp : p ∉ order) :
    sweepUpd n c d pr order acc p = acc p := by
  induction order generalizing acc with
  | nil => rfl
  | cons q rest ih =>
      have hq : p ≠ q := fun hpq => hp (hpq ▸ List.mem_cons_self q rest)
      have hrest : p ∉ rest := fun hr => hp (List.mem_cons_of_mem q hr)
      rw [sweepUpd, ih _ hrest, Function.update_noteq hq]

theorem sweepUpd_mem (n : ℕ) (c : Corpus n) (d : ℚ) (pr : Fin n → ℚ)
    (order : List (Fin n)) (acc : Fin n → ℚ) (p : Fin n) (hp : p ∈ order) :
    sweepUpd n c d pr order acc p = formula n c d pr p := by
  induction order generalizing acc with
  | nil => exact absurd hp (List.not_mem_nil p)
  | cons q rest ih =>
      by_cases hr : p ∈ rest
      · rw [sweepUpd, ih _ hr]
      · have hq : p = q := by
          rcases List.mem_cons.mp hp with h | h
          · exact h
          · exact absurd h hr
        subst hq
        rw [sweepUpd, sweepUpd_not_mem n c d pr rest _ p hr, Function.update_same]

/-- C8: each sweep is a Jacobi-style simultaneous update: evaluating
the pages in any order, starting from any previous table, yields the
vector `stepPR` of the frozen previous vector, so any two complete
evaluation orders agree. -/
theorem sweep_order_independent (n : ℕ) (c : Corpus n) (d : ℚ) (pr : Fin n → ℚ)
    (order₁ order₂ : List (Fin n)) (acc₁ acc₂ : Fin n → ℚ)
    (h₁ : ∀ p, p ∈ order₁) (h₂ : ∀ p, p ∈ order₂) :
    sweepUpd n c d pr order₁ acc₁ = stepPR n c d pr ∧
    sweepUpd n c d pr order₁ acc₁ = sweepUpd n c d pr order₂ acc₂ := by
  have e₁ : sweepUpd n c d pr order₁ acc₁ = stepPR n c d pr :=
    funext fun p => sweepUpd_mem n c d pr order₁ acc₁ p (h₁ p)
  have e₂ : sweepUpd n c d pr order₂ acc₂ = stepPR n c d pr :=
    funext fun p => sweepUpd_mem n c d pr order₂ acc₂ p (h₂ p)
  exact ⟨e₁, e₁.trans e₂.symm⟩

/-- C8 witness: both orders of the two pages of `cTwo`, from two
different starting tables, give the same sweep result. -/
theorem sweep_order_independent_witness :
    sweepUpd 2 cTwo (17/20) (fun _ => 1/2) [0, 1] (fun _ => 0) =
      stepPR 2 cTwo (17/20) (fun _ => 1/2) ∧
    sweepUpd 2 cTwo (17/20) (fun _ => 1/2) [0, 1] (fun _ => 0) =
      sweepUpd 2 cTwo (17/20) (fun _ => 1/2) [1, 0] (fun _ => 1) :=
  sweep_order_independent 2 cTwo (17/20) (fun _ => 1/2) [0, 1] [1, 0]
    (fun _ => 0) (fun _ => 1) (by decide) (by decide)

/-- The `while count:` random walk of `sample_pagerank` (pagerank.py
lines 95-106): each pass increments the current page's counter, builds
the transition model of the current page, and moves to the page the
random source picks from that distribution.  The random source is
abstracted as `draw`, receiving the current page and its transition
model and returning the next page (as in the code, the pick is always
an element of the corpus, whatever the weights are). -/
def sampleWalk (n : ℕ) (c : Corpus n) (d : ℚ)
    (draw : Fin n → (Fin n → ℚ) → Fin n) :
    ℕ → Fin n → (Fin n → ℕ) → (Fin n → ℕ)
  | 0, _, counts => counts
  | Nat.succ k, page, counts =>
      sampleWalk n c d draw k (draw page (transition_model n c page d))
        (fun p => if p = page then counts p + 1 else counts p)

/-- `sample_pagerank(corpus, damping_factor, n)` (pagerank.py lines
78-110): zero counters, a random `start` page, `nsteps` walk steps,
then every counter divided by `nsteps`.  Python's division raises
`ZeroDivisionError` when `nsteps = 0`, embedded as `none`. -/
def sample_pagerank (n : ℕ) (c : Corpus n) (d : ℚ) (nsteps : ℕ)
    (start : Fin n) (draw : Fin n → (Fin n → ℚ) → Fin n) : Option (Fin n → ℚ) :=
  let counts := sampleWalk n c d draw nsteps start (fun _ => 0)
  if nsteps = 0 then none
  else some (fun p => (counts p : ℚ) / (nsteps : ℚ))

theorem sampleWalk_sum (n : ℕ) (c : Corpus n) (d : ℚ)
    (draw : Fin n → (Fin n → ℚ) → Fin n) (k : ℕ) (page : Fin n)
    (counts : Fin n → ℕ) :
    ∑ p, sampleWalk n c d draw k page counts p = (∑ p, counts p) + k := by
  induction k generalizing page counts with
  | zero => rfl
  | succ k ih =>
      rw [sampleWalk, ih]
      have hb : ∑ p, (if p = page then counts p + 1 else counts p)
          = (∑ p, counts p) + 1 := by
        have he : (fun p => if p = page then counts p + 1 else counts p)
            = fun p => counts p + (if p = page then 1 else 0) := by
          funext p
          split <;> simp
        rw [he, Finset.sum_add_distrib, Finset.sum_ite_eq' Finset.univ page fun _ => 1]
        simp
      rw [hb]
      omega

/-- C4: for `nsteps ≥ 1` and any behaviour of the random source, the
sampler's counters sum to exactly `nsteps` and the returned table has
every value in `[0, 1]` with total exactly 1. -/
theorem sample_pagerank_dist (n : ℕ) (c : Corpus n) (d : ℚ) (nsteps : ℕ)
    (start : Fin n) (draw : Fin n → (Fin n → ℚ) → Fin n) (hns : 1 ≤ nsteps) :
    ∑ p, sampleWalk n c d draw nsteps start (fun _ => 0) p = nsteps ∧
    ∃ t, sample_pagerank n c d nsteps start draw = some t ∧
      (∀ p, 0 ≤ t p ∧ t p ≤ 1) ∧ ∑ p, t p = 1 := by
  have hne : nsteps ≠ 0 := by omega
  have hsum : ∑ p, sampleWalk n c d draw nsteps start (fun _ => 0) p = nsteps := by
    rw [sampleWalk_sum]
    simp
  refine ⟨hsum, fun p => (sampleWalk n c d draw nsteps start (fun _ => 0) p : ℚ) / nsteps,
    ?_, ?_, ?_⟩
  · simp [sample_pagerank, hne]
  · intro p
    have hle : sampleWalk n c d draw nsteps start (fun _ => 0) p ≤ nsteps := by
      calc sampleWalk n c d draw nsteps start (fun _ => 0) p
          ≤ ∑ q, sampleWalk n c d draw nsteps start (fun _ => 0) q :=
            Finset.single_le_sum (fun i _ => Nat.zero_le _) (Finset.mem_univ p)
        _ = nsteps := hsum
    have hpos : (0 : ℚ) < nsteps := by
      exact_mod_cast Nat.pos_of_ne_zero hne
    constructor
    · positivity
    · rw [div_le_one hpos]
      exact_mod_cast hle
  · have hpos : ((nsteps : ℚ)) ≠ 0 := Nat.cast_ne_zero.mpr hne
    rw [← Finset.sum_div, ← Nat.cast_sum, hsum]
    field_simp

/-- A one-page corpus whose single page dangles. -/
def cOne : Corpus 1 := fun _ => ∅

/-- C4 witness: three steps on the one-page corpus with a constant
random source. -/
theorem sample_pagerank_dist_witness :
    ∑ p, sampleWalk 1 cOne (17/20) (fun _ _ => 0) 3 0 (fun _ => 0) p = 3 ∧
    ∃ t, sample_pagerank 1 cOne (17/20) 3 0 (fun _ _ => 0) = some t ∧
      (∀ p, 0 ≤ t p ∧ t p ≤ 1) ∧ ∑ p, t p = 1 :=
  sample_pagerank_dist 1 cOne (17/20) 3 0 (fun _ _ => 0) (by norm_num)

/-- C10: calling the sampler with `nsteps = 0` performs no walk steps
(the counters are returned untouched) and hits the division-by-zero
error at the final normalisation; for every `nsteps ≥ 1` the division
is by a positive number and a table is returned normally. -/
theorem sample_pagerank_zero_steps (n : ℕ) (c : Corpus n) (d : ℚ) (start : Fin n)
    (draw : Fin n → (Fin n → ℚ) → Fin n) :
    (∀ counts, sampleWalk n c d draw 0 start counts = counts) ∧
    sample_pagerank n c d 0 start draw = none ∧
    ∀ k, 1 ≤ k → ∃ t, sample_pagerank n c d k start draw = some t := by
  refine ⟨fun _ => rfl, by simp [sample_pagerank], ?_⟩
  intro k hk
  have hne : k ≠ 0 := by omega
  refine ⟨fun p => (sampleWalk n c d draw k start (fun _ => 0) p : ℚ) / k, ?_⟩
  simp [sample_pagerank, hne]

/-- C10 witness: the sampler at two steps on the one-page corpus
returns a table. -/
theorem sample_pagerank_zero_steps_witness :
    ∃ t, sample_pagerank 1 cOne (17/20) 2 0 (fun _ _ => 0) = some t :=
  (sample_pagerank_zero_steps 1 cOne (17/20) 0 (fun _ _ => 0)).2.2 2 (by norm_num)

/-- The weight `formula` gives to the previous rank of page `i` when
recomputing `page`: `1/len(corpus[i])` when `i` links to `page`, `0`
when `i` has links but not to `page`, and `1/len(corpus)` when `i`
dangles. -/
def wgt (n : ℕ) (c : Corpus n) (i p : Fin n) : ℚ :=
  if c i ≠ ∅ then (if p ∈ c i then ((c i).card : ℚ)⁻¹ else 0) else ((n : ℚ))⁻¹

theorem formula_eq_wgt (n : ℕ) (c : Corpus n) (d : ℚ) (pr : Fin n → ℚ)
    (page : Fin n) :
    formula n c d pr page = (1 - d) / n + d * ∑ i, wgt n c i page * pr i := by
  unfold formula wgt
  congr 2
  apply Finset.sum_congr rfl
  intro i _
  split
  · split <;> ring
  · ring

theorem wgt_nonneg (n : ℕ) (c : Corpus n) (i p : Fin n) : 0 ≤ wgt n c i p := by
  unfold wgt
  split
  · split
    · positivity
    · exact le_refl 0
  · positivity

theorem wgt_colsum (n : ℕ) (c : Corpus n) (hn : 1 ≤ n) (i : Fin n) :
    ∑ p, wgt n c i p = 1 := by
  have hn0 : (n : ℚ) ≠ 0 := Nat.cast_ne_zero.mpr (by omega)
  by_cases h : c i = ∅
  · have key : ∀ p, wgt n c i p = ((n : ℚ))⁻¹ := fun p => by simp [wgt, h]
    calc ∑ p, wgt n c i p = ∑ _p : Fin n, ((n : ℚ))⁻¹ :=
          Finset.sum_congr rfl fun p _ => key p
      _ = 1 := by
          simp only [Finset.sum_const, Finset.card_univ, Fintype.card_fin, nsmul_eq_mul]
          field_simp
  · have hcard : ((c i).card : ℚ) ≠ 0 := by
      have hne : (c i).Nonempty := Finset.nonempty_iff_ne_empty.mpr h
      exact_mod_cast (Finset.card_pos.mpr hne).ne'
    have key : ∀ p, wgt n c i p = (if p ∈ c i then ((c i).card : ℚ)⁻¹ else 0) :=
      fun p => by simp [wgt, h]
    calc ∑ p, wgt n c i p
        = ∑ p, (if p ∈ c i then ((c i).card : ℚ)⁻¹ else 0) :=
          Finset.sum_congr rfl fun p _ => key p
      _ = 1 := by
          rw [Finset.sum_ite_mem, Finset.univ_inter, Finset.sum_const, nsmul_eq_mul]
          field_simp

theorem stepPR_sub (n : ℕ) (c : Corpus n) (d : ℚ) (x y : Fin n → ℚ) (p : Fin n) :
    stepPR n c d x p - stepPR n c d y p = d * ∑ i, wgt n c i p * (x i - y i) := by
  simp only [stepPR, formula_eq_wgt]
  have hsub : ∑ i, wgt n c i p * (x i - y i)
      = (∑ i, wgt n c i p * x i) - ∑ i, wgt n c i p * y i := by
    rw [← Finset.sum_sub_distrib]
    apply Finset.sum_congr rfl
    intro i _
    ring
  rw [hsub]
  ring

/-- L1 contraction of one sweep: the sweep shrinks L1 distances by at
least the damping factor (the weight matrix is column-stochastic). -/
theorem stepPR_contraction (n : ℕ) (c : Corpus n) (d : ℚ) (hn : 1 ≤ n)
    (hd : 0 ≤ d) (x y : Fin n → ℚ) :
    ∑ p, |stepPR n c d x p - stepPR n c d y p| ≤ d * ∑ i, |x i - y i| := by
  calc ∑ p, |stepPR n c d x p - stepPR n c d y p|
      = ∑ p, |d * ∑ i, wgt n c i p * (x i - y i)| :=
        Finset.sum_congr rfl fun p _ => by rw [stepPR_sub]
    _ ≤ ∑ p, d * ∑ i, wgt n c i p * |x i - y i| := by
        apply Finset.sum_le_sum
        intro p _
        rw [abs_mul, abs_of_nonneg hd]
        apply mul_le_mul_of_nonneg_left _ hd
        calc |∑ i, wgt n c i p * (x i - y i)|
            ≤ ∑ i, |wgt n c i p * (x i - y i)| := Finset.abs_sum_le_sum_abs _ _
          _ = ∑ i, wgt n c i p * |x i - y i| :=
              Finset.sum_congr rfl fun i _ => by
                rw [abs_mul, abs_of_nonneg (wgt_nonneg n c i p)]
    _ = d * ∑ p, ∑ i, wgt n c i p * |x i - y i| := by rw [Finset.mul_sum]
    _ = d * ∑ i, ∑ p, wgt n c i p * |x i - y i| := by rw [Finset.sum_comm]
    _ = d * ∑ i, |x i - y i| := by
        congr 1
        apply Finset.sum_congr rfl
        intro i _
        rw [← Finset.sum_mul, wgt_colsum n c hn i, one_mul]

/-- The L1 residual of a rank vector: total distance moved by one more
sweep. -/
def errL1 (n : ℕ) (c : Corpus n) (d : ℚ) (x : Fin n → ℚ) : ℚ :=
  ∑ p, |x p - stepPR n c d x p|

theorem errL1_nonneg (n : ℕ) (c : Corpus n) (d : ℚ) (x : Fin n → ℚ) :
    0 ≤ errL1 n c d x :=
  Finset.sum_nonneg fun p _ => abs_nonneg _

theorem errL1_step (n : ℕ) (c : Corpus n) (d : ℚ) (hn : 1 ≤ n) (hd : 0 ≤ d)
    (x : Fin n → ℚ) :
    errL1 n c d (stepPR n c d x) ≤ d * errL1 n c d x :=
  stepPR_contraction n c d hn hd x (stepPR n c d x)

/-- `k` successive sweeps. -/
def stepIter (n : ℕ) (c : Corpus n) (d : ℚ) : ℕ → (Fin n → ℚ) → (Fin n → ℚ)
  | 0, x => x
  | Nat.succ k, x => stepIter n c d k (stepPR n c d x)

theorem errL1_stepIter (n : ℕ) (c : Corpus n) (d : ℚ) (hn : 1 ≤ n) (hd : 0 ≤ d)
    (k : ℕ) (x : Fin n → ℚ) :
    errL1 n c d (stepIter n c d k x) ≤ d ^ k * errL1 n c d x := by
  induction k generalizing x with
  | zero => simp [stepIter]
  | succ k ih =>
      calc errL1 n c d (stepIter n c d (k + 1) x)
          = errL1 n c d (stepIter n c d k (stepPR n c d x)) := rfl
        _ ≤ d ^ k * errL1 n c d (stepPR n c d x) := ih (stepPR n c d x)
        _ ≤ d ^ k * (d * errL1 n c d x) :=
            mul_le_mul_of_nonneg_left (errL1_step n c d hn hd x) (pow_nonneg hd k)
        _ = d ^ (k + 1) * errL1 n c d x := by ring

/-- If some number of further sweeps drives the L1 residual below the
threshold, the `while` loop reaches its exit. -/
theorem loopResult_of_small_err (n : ℕ) (c : Corpus n) (d : ℚ) (k : ℕ) :
    ∀ x, errL1 n c d (stepIter n c d k x) < 1/1000 →
      ∃ r, LoopResult n c d x r := by
  induction k with
  | zero =>
      intro x hx
      refine ⟨x, LoopResult.done x ?_⟩
      rintro ⟨p, hp⟩
      have hle : |x p - stepPR n c d x p| ≤ errL1 n c d x := by
        unfold errL1
        exact Finset.single_le_sum (f := fun q => |x q - stepPR n c d x q|)
          (fun i _ => abs_nonneg _) (Finset.mem_univ p)
      have hx0 : errL1 n c d x < 1/1000 := hx
      linarith
  | succ k ih =>
      intro x hx
      by_cases hc : ∃ p, 1/1000 ≤ |x p - stepPR n c d x p|
      · obtain ⟨r, hr⟩ := ih (stepPR n c d x) hx
        exact ⟨r, LoopResult.cont x r hc hr⟩
      · exact ⟨x, LoopResult.done x hc⟩

/-- The convergence loop terminates for any interior damping factor:
the sweep is a `d`-contraction in L1, so the residual eventually drops
below the `0.001` exit threshold. -/
theorem iterate_total (n : ℕ) (c : Corpus n) (d : ℚ) (hd0 : 0 < d) (hd1 : d < 1) :
    ∃ r, iterate_rel n c d r := by
  rcases Nat.eq_zero_or_pos n with h0 | hpos
  · subst h0
    exact ⟨stepPR 0 c d fun _ => 1 / ((0 : ℕ) : ℚ),
      LoopResult.done _ (by rintro ⟨p, _⟩; exact p.elim0)⟩
  · have hn : 1 ≤ n := hpos
    set x₁ := stepPR n c d (fun _ => 1 / (n : ℚ)) with hx₁
    set E := errL1 n c d x₁ with hE
    have hE0 : 0 ≤ E := errL1_nonneg n c d x₁
    have hEpos : (0 : ℚ) < E + 1 := by linarith
    obtain ⟨k, hk⟩ := exists_pow_lt_of_lt_one
      (x := (1/1000) / (E + 1)) (y := d) (by positivity) hd1
    have hsmall : errL1 n c d (stepIter n c d k x₁) < 1/1000 := by
      have h1 : errL1 n c d (stepIter n c d k x₁) ≤ d ^ k * E :=
        errL1_stepIter n c d hn (le_of_lt hd0) k x₁
      have h2 : d ^ k * E ≤ d ^ k * (E + 1) :=
        mul_le_mul_of_nonneg_left (by linarith) (pow_nonneg (le_of_lt hd0) k)
      have h3 : d ^ k * (E + 1) < ((1/1000) / (E + 1)) * (E + 1) :=
        mul_lt_mul_of_pos_right hk hEpos
      have h4 : ((1/1000) / (E + 1)) * (E + 1) = 1/1000 :=
        div_mul_cancel₀ _ (ne_of_gt hEpos)
      linarith
    exact loopResult_of_small_err n c d k x₁ hsmall

/-- The loop's exit condition holds of whatever it returns: every
page's rank moves by strictly less than `0.001` under one more
sweep. -/
theorem loopResult_converged (n : ℕ) (c : Corpus n) (d : ℚ) (x r : Fin n → ℚ)
    (h : LoopResult n c d x r) :
    ∀ p, |r p - stepPR n c d r p| < 1/1000 := by
  induction h with
  | done x hdone =>
      intro p
      by_contra hcon
      exact hdone ⟨p, le_of_not_lt hcon⟩
  | cont x r hx htail ih => exact ih

/-- Whenever the iteration's vectors sum to 1, so do the next sweep's
(exact arithmetic). -/
theorem sum_stepPR (n : ℕ) (c : Corpus n) (d : ℚ) (hn : 1 ≤ n) (pr : Fin n → ℚ) :
    ∑ p, stepPR n c d pr p = (1 - d) + d * ∑ i, pr i := by
  have hn0 : (n : ℚ) ≠ 0 := Nat.cast_ne_zero.mpr (by omega)
  calc ∑ p, stepPR n c d pr p
      = ∑ p, ((1 - d) / n + d * ∑ i, wgt n c i p * pr i) :=
        Finset.sum_congr rfl fun p _ => by rw [stepPR, formula_eq_wgt]
    _ = (∑ _p : Fin n, (1 - d) / (n : ℚ)) + ∑ p, d * ∑ i, wgt n c i p * pr i :=
        Finset.sum_add_distrib
    _ = (1 - d) + d * ∑ i, pr i := by
        have h1 : ∑ _p : Fin n, (1 - d) / (n : ℚ) = 1 - d := by
          simp only [Finset.sum_const, Finset.card_univ, Fintype.card_fin, nsmul_eq_mul]
          field_simp
        have h2 : ∑ p, d * ∑ i, wgt n c i p * pr i = d * ∑ i, pr i := by
          rw [← Finset.mul_sum, Finset.sum_comm]
          congr 1
          apply Finset.sum_congr rfl
          intro i _
          rw [← Finset.sum_mul, wgt_colsum n c hn i, one_mul]
        rw [h1, h2]

theorem loopResult_sum (n : ℕ) (c : Corpus n) (d : ℚ) (hn : 1 ≤ n)
    (x r : Fin n → ℚ) (h : LoopResult n c d x r) (hx : ∑ p, x p = 1) :
    ∑ p, r p = 1 := by
  induction h with
  | done y hdone => exact hx
  | cont y r hy htail ih =>
      apply ih
      rw [sum_stepPR n c d hn y, hx]
      ring

/-- C1 (amended): for interior damping the convergence loop
terminates, and the returned table is the old vector of the final
difference check — the vector every one of whose entries moves by
strictly less than `0.001` under one more sweep. -/
theorem iterate_terminates_returns_checked (n : ℕ) (c : Corpus n) (d : ℚ)
    (hd0 : 0 < d) (hd1 : d < 1) :
    ∃ r, iterate_rel n c d r ∧ ∀ p, |r p - stepPR n c d r p| < 1/1000 := by
  obtain ⟨r, hr⟩ := iterate_total n c d hd0 hd1
  exact ⟨r, hr, loopResult_converged n c d _ r hr⟩

/-- C1 witness: the amended statement at the dangling one-page corpus
with damping 1/2. -/
theorem iterate_terminates_returns_checked_witness :
    ∃ r, iterate_rel 1 cOne (1/2) r ∧
      ∀ p, |r p - stepPR 1 cOne (1/2) r p| < 1/1000 :=
  iterate_terminates_returns_checked 1 cOne (1/2) (by norm_num) (by norm_num)

/-- An asymmetric two-page corpus: page 0 links to page 1, page 1
links to both pages. -/
def cC1 : Corpus 2 := fun i => if i = 0 then {1} else {0, 1}

/-- The table `iterate_pagerank` returns on `cC1` with damping 1/100:
the vector after the pre-loop sweep, which already passes the first
difference check. -/
def prC1 : Fin 2 → ℚ := fun p => if p = 0 then 199/400 else 201/400

/-- C1 counterexample: on `cC1` with damping `1/100` the loop exits at
its first check and returns `prC1`, yet `prC1` differs from the new
vector computed in that final sweep (`stepPR ... prC1`), so the
returned table is the previous iteration's vector, not the newly
computed one. -/
theorem iterate_returns_previous_vector_counterexample :
    iterate_rel 2 cC1 (1/100) prC1 ∧ prC1 ≠ stepPR 2 cC1 (1/100) prC1 := by
  have h1 : stepPR 2 cC1 (1/100) (fun _ => 1 / ((2:ℕ) : ℚ)) = prC1 := by
    funext p
    fin_cases p <;>
      · simp [stepPR, formula, cC1, prC1, Fin.sum_univ_two]
        norm_num
  constructor
  · unfold iterate_rel
    rw [h1]
    apply LoopResult.done
    rintro ⟨p, hp⟩
    rw [← not_lt] at hp
    apply hp
    fin_cases p <;>
      · simp [stepPR, formula, cC1, prC1, Fin.sum_univ_two]
        rw [abs_lt]
        constructor <;> norm_num
  · intro h
    have h0 := congrFun h 0
    simp [stepPR, formula, cC1, prC1, Fin.sum_univ_two] at h0
    norm_num at h0

/-- C3: whatever table `iterate_pagerank` returns is a fixed point to
tolerance: one more simultaneous sweep moves no page's rank by `0.001`
or more. -/
theorem iterate_fixed_point (n : ℕ) (c : Corpus n) (d : ℚ)
    (hd0 : 0 < d) (hd1 : d < 1) (r : Fin n → ℚ) (h : iterate_rel n c d r) :
    ∀ p, |r p - stepPR n c d r p| < 1/1000 :=
  loopResult_converged n c d _ r h

/-- C3 witness: the fixed-point property of the table returned on the
one-page corpus. -/
theorem iterate_fixed_point_witness :
    |(1:ℚ) - stepPR 1 cOne (1/2) (fun _ => (1:ℚ)) 0| < 1/1000 := by
  have h1 : stepPR 1 cOne (1/2) (fun _ => 1 / ((1:ℕ) : ℚ)) = fun _ => (1:ℚ) := by
    funext p
    simp [stepPR, formula, cOne, Fin.sum_univ_one]
  have hrel : iterate_rel 1 cOne (1/2) (fun _ => (1:ℚ)) := by
    unfold iterate_rel
    rw [h1]
    apply LoopResult.done
    rintro ⟨p, hp⟩
    simp [stepPR, formula, cOne, Fin.sum_univ_one] at hp
    exact absurd hp (by norm_num)
  exact iterate_fixed_point 1 cOne (1/2) (by norm_num) (by norm_num)
    (fun _ => (1:ℚ)) hrel 0

/-- C5: a simultaneous sweep preserves the sum-to-one invariant in
exact arithmetic, and consequently every table `iterate_pagerank`
returns sums to exactly 1. -/
theorem iterate_sum_invariant (n : ℕ) (c : Corpus n) (d : ℚ) (hn : 1 ≤ n) :
    (∀ pr, ∑ p, pr p = 1 → ∑ p, stepPR n c d pr p = 1) ∧
    (∀ r, iterate_rel n c d r → ∑ p, r p = 1) := by
  have hn0 : (n : ℚ) ≠ 0 := Nat.cast_ne_zero.mpr (by omega)
  have hpres : ∀ pr, (∑ p, pr p) = 1 → ∑ p, stepPR n c d pr p = 1 := by
    intro pr hpr
    rw [sum_stepPR n c d hn pr, hpr]
    ring
  refine ⟨hpres, fun r hr => ?_⟩
  apply loopResult_sum n c d hn _ r hr
  apply hpres
  simp only [Finset.sum_const, Finset.card_univ, Fintype.card_fin, nsmul_eq_mul]
  field_simp

/-- C5 witness: one sweep on `cTwo` starting from the uniform vector
keeps the total at 1. -/
theorem iterate_sum_invariant_witness :
    ∑ p, stepPR 2 cTwo (17/20) (fun _ => (1:ℚ)/2) p = 1 :=
  (iterate_sum_invariant 2 cTwo (17/20) (by norm_num)).1 (fun _ => (1:ℚ)/2)
    (by rw [Fin.sum_univ_two]; norm_num)

/-- C6 (amended): the loop has no iteration cap and no distinct
non-convergence outcome; instead, for every damping factor strictly
between 0 and 1 the loop provably terminates by contraction. -/
theorem iterate_terminates_for_interior_damping (n : ℕ) (c : Corpus n) (d : ℚ)
    (hd0 : 0 < d) (hd1 : d < 1) :
    ∃ r, iterate_rel n c d r :=
  iterate_total n c d hd0 hd1

/-- C6 witness: termination on the one-page corpus with damping 1/2. -/
theorem iterate_terminates_for_interior_damping_witness :
    ∃ r, iterate_rel 1 cOne (1/2) r :=
  iterate_terminates_for_interior_damping 1 cOne (1/2) (by norm_num) (by norm_num)

/-- A three-page corpus on which the update oscillates when damping is
1: pages 1 and 2 link to page 0, page 0 links to page 1. -/
def cOsc : Corpus 3 := fun i => if i = 0 then {1} else {0}

/-- First oscillation state of `cOsc` at damping 1. -/
def sOsc1 : Fin 3 → ℚ := fun p => if p = 0 then 2/3 else if p = 1 then 1/3 else 0

/-- Second oscillation state of `cOsc` at damping 1. -/
def sOsc2 : Fin 3 → ℚ := fun p => if p = 0 then 1/3 else if p = 1 then 2/3 else 0

/-- C6 counterexample: there is no iteration cap — with damping 1 (an
input on which the claim asserts termination via the cap) the loop on
`cOsc` oscillates between two states forever and `iterate_pagerank`
never returns. -/
theorem iterate_unbounded_counterexample :
    ¬ ∃ r, iterate_rel 3 cOsc 1 r := by
  have h1 : stepPR 3 cOsc 1 (fun _ => 1 / ((3:ℕ) : ℚ)) = sOsc1 := by
    funext p
    fin_cases p <;> simp [stepPR, formula, cOsc, sOsc1, Fin.sum_univ_three] <;> norm_num
  have h12 : stepPR 3 cOsc 1 sOsc1 = sOsc2 := by
    funext p
    fin_cases p <;> simp [stepPR, formula, cOsc, sOsc1, sOsc2, Fin.sum_univ_three]
  have h21 : stepPR 3 cOsc 1 sOsc2 = sOsc1 := by
    funext p
    fin_cases p <;> simp [stepPR, formula, cOsc, sOsc1, sOsc2, Fin.sum_univ_three]
  have hdiv : ∀ x r, LoopResult 3 cOsc 1 x r → x ≠ sOsc1 ∧ x ≠ sOsc2 := by
    intro x r h
    induction h with
    | done y hdone =>
        constructor <;> rintro rfl
        · refine hdone ⟨0, le_abs.mpr (Or.inl ?_)⟩
          rw [h12]
          norm_num [sOsc1, sOsc2]
        · refine hdone ⟨0, le_abs.mpr (Or.inr ?_)⟩
          rw [h21]
          norm_num [sOsc1, sOsc2]
    | cont y r hy htail ih =>
        constructor <;> rintro rfl
        · exact ih.2 h12
        · exact ih.1 h21
  rintro ⟨r, hr⟩
  unfold iterate_rel at hr
  rw [h1] at hr
  exact (hdiv sOsc1 r hr).1 rfl

/-- The empty corpus. -/
def cEmpty : Corpus 0 := fun i => i.elim0

/-- C7 (amended): not every contract violation fails fast: calling the
iterative solver on the empty corpus terminates normally with the
empty table for every damping factor, and no operation validates the
damping range — an out-of-range damping makes the transition model
return a degenerate distribution with a negative entry instead of an
error. -/
theorem contract_violations_not_all_errors (d : ℚ) :
    iterate_rel 0 cEmpty d Fin.elim0 ∧
    (1 < d → transition_model 2 cTwo 0 d 0 < 0) := by
  constructor
  · unfold iterate_rel
    have h0 : stepPR 0 cEmpty d (fun _ => 1 / ((0:ℕ) : ℚ)) = Fin.elim0 :=
      funext fun p => p.elim0
    rw [h0]
    apply LoopResult.done
    rintro ⟨p, _⟩
    exact p.elim0
  · intro hd
    have hmem : (0 : Fin 2) ∉ cTwo 0 := by decide
    have hne : cTwo 0 ≠ ∅ := by decide
    simp only [transition_model, hne, if_false, hmem, ite_false, if_neg, add_zero]
    rw [div_neg_iff]
    right
    constructor
    · linarith
    · norm_num

/-- C7 witness: the degenerate-distribution half at damping 2. -/
theorem contract_violations_not_all_errors_witness :
    transition_model 2 cTwo 0 2 0 < 0 :=
  (contract_violations_not_all_errors 2).2 (by norm_num)

/-- C7 counterexample: `iterate_pagerank` on the empty corpus (a
stated contract violation) returns the empty rank table instead of
failing, and `transition_model` with damping 2 (out of range) returns
a distribution carrying a negative probability instead of failing. -/
theorem contract_violation_no_error_counterexample :
    iterate_rel 0 cEmpty (17/20) Fin.elim0 ∧
    transition_model 2 cTwo 0 2 0 < 0 := by
  constructor
  · unfold iterate_rel
    have h0 : stepPR 0 cEmpty (17/20) (fun _ => 1 / ((0:ℕ) : ℚ)) = Fin.elim0 :=
      funext fun p => p.elim0
    rw [h0]
    apply LoopResult.done
    rintro ⟨p, _⟩
    exact p.elim0
  · simp [transition_model, cTwo]
    norm_num

end PageRankSpec
